import Mathlib

/-!
Shallow embedding of the 1BRC aggregation engine (src/main.rs).

Bytes are modelled as natural numbers (0..255), byte slices as lists of
naturals.  Machine integers are modelled as mathematical integers with
explicit wrap-around: u8 lane arithmetic is `% 256`, the i16 measure is
two's complement on 16 bits, the i32 sum and u32 count wrap at `2 ^ 32`.
Code that can panic or hit undefined behaviour (slice underflow,
first_set().unwrap_unchecked()) is modelled with Option, returning none
exactly at the panicking / undefined inputs.
Relevant byte values: 10 is the newline, 59 the semicolon, 45 the minus
sign, 46 the dot, 48 the digit zero.
-/

namespace OneBrc

/-- Two's complement read-back of a 16-bit pattern. -/
def toI16 (n : Nat) : Int :=
  if n < 32768 then (n : Int) else (n : Int) - 65536

/-- Two's complement read-back of a 32-bit pattern. -/
def toI32 (n : Nat) : Int :=
  if n < 2147483648 then (n : Int) else (n : Int) - 4294967296

/-- The 32-bit pattern of an integer (`as i32` on a value, or an i16
sign-extended to i32): the representative of `x` modulo `2 ^ 32`. -/
def toU32 (x : Int) : Nat :=
  (x % 4294967296).toNat

/-- `find_new_line_in_chunk`: load up to 64 bytes (absent lanes are
zero-padded by load_or_default, and the zero byte never equals the
newline byte 10), compare every lane with the newline byte, take the
bitmask.  `pos` is the index of the lowest matching lane, or 64 (the
number of trailing zeros of an empty bitmask) when no lane matches. -/
def find_new_line_in_chunk (chunk : List Nat) : Bool × Nat :=
  if (chunk.take 64).findIdx (fun b => b == 10) < (chunk.take 64).length
  then (true, (chunk.take 64).findIdx (fun b => b == 10))
  else (false, 64)

/-- `find_new_line_pos`: scan two consecutive 64-byte windows and blend
the three candidate results with u8 arithmetic, exactly as the source
does: `found1 as u8 * pos1 | (!found1) as u8 * found2 as u8 * pos2 |
(!found1) as u8 * (!found2) as u8 * remaining.len() as u8`.  The cast of
the length to u8 is the `% 256`. -/
def find_new_line_pos (remaning : List Nat) : Nat :=
  (if (find_new_line_in_chunk remaning).1
    then (find_new_line_in_chunk remaning).2 else 0) |||
    (if !(find_new_line_in_chunk remaning).1 &&
        (find_new_line_in_chunk (remaning.drop 64)).1
      then (find_new_line_in_chunk (remaning.drop 64)).2 else 0) |||
      (if !(find_new_line_in_chunk remaning).1 &&
          !(find_new_line_in_chunk (remaning.drop 64)).1
        then remaning.length % 256 else 0)

/-- The numeric part of `parse_next_row`, operating on the eight u8
lanes loaded from the last six bytes of the line (lanes 6 and 7 are the
zero padding of load_or_default) and on the position `msp` of the
semicolon among those lanes.  `measure_parts` is the wrapping u8
subtraction of the digit zero from every lane; the significand is the
wrapping u8 dot product with `[0,0,0,10,0,1,0,0]` followed by a wrapping
u8 reduce_sum, zero-extended to i16; `hundreds` is added in i16; the
final xor-and-subtract conditionally negates in i16 two's complement. -/
def row_measure (tail6 : List Nat) (msp : Nat) : Int :=
  let mb : List Nat := tail6 ++ [0, 0]
  let mp := mb.map (fun b => (b + 256 - 48) % 256)
  let sign16 : Nat := if 9 < mp.getD (msp + 1) 0 then 65535 else 0
  let hundreds : Nat := if mp.getD 2 0 < 9 then mp.getD 2 0 * 100 else 0
  let significand : Nat := (10 * mp.getD 3 0 + mp.getD 5 0) % 256 + hundreds
  toI16 ((Nat.xor significand sign16 + 65536 - sign16) % 65536)

/-- `parse_next_row`: cut the line at the next newline, load the last
six bytes of the line, locate the semicolon among the loaded lanes, and
decode the measure.  The slice `line[line.len() - 6..]` underflows and
panics when the line is shorter than six bytes, and
`first_set().unwrap_unchecked()` is undefined when no lane holds a
semicolon; both are modelled as none. -/
def parse_next_row (remaning : List Nat) :
    Option (List Nat × Int × Nat) :=
  let end_line := find_new_line_pos remaning
  let line := remaning.take end_line
  if line.length < 6 then none
  else
    let tail6 := line.drop (line.length - 6)
    let msp := tail6.findIdx (fun b => b == 59)
    if 6 ≤ msp then none
    else
      let row_delimiter_pos := line.length - (6 - msp)
      some (line.take row_delimiter_pos, row_measure tail6 msp, end_line + 1)

/-- The per-key accumulator of src/main.rs. -/
structure Stats where
  min : Int
  max : Int
  sum : Nat
  count : Nat
  deriving Repr, DecidableEq

/-- The `or_insert` default: min at i16::MAX, max at i16::MIN, zero sum
and count. -/
def emptyStats : Stats := ⟨32767, -32768, 0, 0⟩

/-- One worker update: `min = measure.min(min)`, `max = measure.max(max)`,
`count += 1` (u32, wrapping), `sum += measure as i32` (i32, wrapping). -/
def updStats (s : Stats) (v : Int) : Stats :=
  ⟨min v s.min, max v s.max,
    (s.sum + toU32 v) % 4294967296, (s.count + 1) % 4294967296⟩

/-- A worker's key-to-Stats table, as an association list. -/
abbrev AggMap := List (List Nat × Stats)

/-- Lookup by full byte-content equality (first matching entry). -/
def lookupStats : AggMap → List Nat → Option Stats
  | [], _ => none
  | (k2, s) :: rest, k => if k = k2 then some s else lookupStats rest k

/-- Replace the stats of the first entry holding the key; identity when
the key is absent. -/
def setStats : AggMap → List Nat → Stats → AggMap
  | [], _, _ => []
  | (k2, s2) :: rest, k, s =>
      if k = k2 then (k2, s) :: rest else (k2, s2) :: setStats rest k s

/-- `cities_stats.entry(city).or_insert(..)` followed by the update. -/
def upsert (m : AggMap) (k : List Nat) (v : Int) : AggMap :=
  match lookupStats m k with
  | some s => setStats m k (updStats s v)
  | none => m ++ [(k, updStats emptyStats v)]

/-- The reducer's merge of one incoming Stats record into the global
record with the same key: `min = stats.min.min(global.min)`,
`max = stats.max.max(global.max)`, `sum += stats.sum` (i32 wrapping),
`count += stats.count` (u32 wrapping). -/
def mergeStats (g s : Stats) : Stats :=
  ⟨min s.min g.min, max s.max g.max,
    (g.sum + s.sum) % 4294967296, (g.count + s.count) % 4294967296⟩

/-- One step of the reducer loop: merge into the present entry, or
insert the record unchanged when the key is new. -/
def mergeInsert (g : AggMap) (k : List Nat) (s : Stats) : AggMap :=
  match lookupStats g k with
  | some gs => setStats g k (mergeStats gs s)
  | none => g ++ [(k, s)]

/-- The reducer: fold a whole worker map into the global map. -/
def mergeInto (g w : AggMap) : AggMap :=
  w.foldl (fun g q => mergeInsert g q.1 q.2) g

/-- Folding a list of (key, measure) rows into a map, as the worker
loop does. -/
def aggregateRows (rows : List (List Nat × Int)) : AggMap :=
  rows.foldl (fun m q => upsert m q.1 q.2) []

/-- The worker loop `while i < chunk.len() { parse; fold; i += last }`,
with explicit fuel (the loop advances by at least one byte per
iteration, so `chunk.length + 1` fuel always suffices).  A parse
failure (panic / undefined behaviour) aborts the worker: none. -/
def workerFuel : Nat → List Nat → Nat → AggMap → Option AggMap
  | 0, _, _, _ => none
  | fuel + 1, chunk, i, m =>
      if i < chunk.length then
        match parse_next_row (chunk.drop i) with
        | none => none
        | some (city, measure, last) =>
            workerFuel fuel chunk (i + last) (upsert m city measure)
      else some m

/-- One spawned worker: fold its whole chunk from index 0. -/
def runWorker (chunk : List Nat) : Option AggMap :=
  workerFuel (chunk.length + 1) chunk 0 []

/-- The boundary update of the `chunks` loop:
`i = (i + chunk_size).min(buffer.len()); i += find_new_line_pos(&buffer[i..])`. -/
def next_boundary (buffer : List Nat) (chunk_size i : Nat) : Nat :=
  Nat.min (i + chunk_size) buffer.length +
    find_new_line_pos (buffer.drop (Nat.min (i + chunk_size) buffer.length))

/-- The `chunks` loop, with explicit fuel: while `i ≤ len`, extend the
candidate boundary to the next newline, record the half-open range, and
resume one byte past the boundary.  Ranges are kept as (start, stop)
index pairs into the buffer. -/
def chunksFuel : Nat → List Nat → Nat → Nat → List (Nat × Nat)
  | 0, _, _, _ => []
  | fuel + 1, buffer, chunk_size, i =>
      if i ≤ buffer.length then
        (i, next_boundary buffer chunk_size i) ::
          chunksFuel fuel buffer chunk_size
            (next_boundary buffer chunk_size i + 1)
      else []

/-- `chunks(buffer, chunk_size)`: the loop starts at zero; the index
grows by at least one per iteration, so `length + 2` fuel suffices. -/
def chunks (buffer : List Nat) (chunk_size : Nat) : List (Nat × Nat) :=
  chunksFuel (buffer.length + 2) buffer chunk_size 0

/-- The bytes of a recorded chunk range. -/
def chunkBytes (buffer : List Nat) (p : Nat × Nat) : List Nat :=
  (buffer.drop p.1).take (p.2 - p.1)

/-- Fan-in of the worker maps into the global map (the merge is order
independent, so the nondeterministic channel arrival order is modelled
as chunk order). -/
def reduceAll (maps : List AggMap) : AggMap :=
  maps.foldl mergeInto []

/-- The whole multi_thread pipeline up to (not including) the f32
formatting: split, run every worker, merge.  none when some worker
panics or hits undefined behaviour. -/
def pipeline (buffer : List Nat) (chunk_size : Nat) : Option AggMap :=
  ((chunks buffer chunk_size).mapM
      (fun p => runWorker (chunkBytes buffer p))).map reduceAll

/-- The count field recorded for a key (zero when absent). -/
def mcount (m : AggMap) (k : List Nat) : Nat :=
  match lookupStats m k with
  | some s => s.count
  | none => 0

/-- The sum field recorded for a key (zero when absent). -/
def msum (m : AggMap) (k : List Nat) : Nat :=
  match lookupStats m k with
  | some s => s.sum
  | none => 0

/-! ## The input-format model

The spec fixes the row grammar: a key free of separator and newline
bytes, one semicolon, and a numeric field matching
optional minus, one or two digits, a dot, one digit. -/

/-- A decimal digit byte. -/
def isDigit (b : Nat) : Bool := 48 ≤ b && b ≤ 57

/-- The numeric-field grammar: optional minus, one or two integer
digits, a dot, exactly one fractional digit. -/
def validVal : List Nat → Bool
  | [a, b, c] => isDigit a && (b == 46) && isDigit c
  | [a, b, c, d] =>
      ((a == 45) || isDigit a) && isDigit b && (c == 46) && isDigit d
  | [a, b, c, d, e] =>
      (a == 45) && isDigit b && isDigit c && (d == 46) && isDigit e
  | _ => false

/-- One key;value row. -/
structure RawRow where
  key : List Nat
  val : List Nat
  deriving Repr, DecidableEq

/-- The bytes of a row's line (without the newline). -/
def lineOf (r : RawRow) : List Nat := r.key ++ 59 :: r.val

/-- A row the engine handles correctly: the key avoids the separator
and newline bytes, the value matches the grammar, and the line is 6 to
63 bytes long — below 6 bytes the parser's tail slice panics, and past
63 bytes the vectorized newline search no longer returns the true
offset. -/
def WfRow (r : RawRow) : Prop :=
  59 ∉ r.key ∧ 10 ∉ r.key ∧ validVal r.val = true ∧
    6 ≤ (lineOf r).length ∧ (lineOf r).length ≤ 63

instance (r : RawRow) : Decidable (WfRow r) := by
  unfold WfRow; infer_instance

/-- A buffer of newline-separated rows; `term` tells whether the final
row carries a trailing newline. -/
def joinRows : List RawRow → Bool → List Nat
  | [], _ => []
  | r :: rest, term =>
      lineOf r ++
        (if rest.isEmpty && !term then [] else 10 :: joinRows rest term)

/-- The measure the code computes for a row (its tail-six window and
the semicolon lane it finds there). -/
def mval (r : RawRow) : Int :=
  row_measure ((lineOf r).drop ((lineOf r).length - 6)) (5 - r.val.length)

/-- The (key, measure) pairs a worker folds for a list of rows. -/
def rowsKV (rows : List RawRow) : List (List Nat × Int) :=
  rows.map (fun r => (r.key, mval r))

/-- Re-rendering a scaled-by-10 fixed-point value at one fractional
digit, following the spec's words for the round-trip property (adequate
for the grammar's range, whose integer part has at most two digits). -/
def specRender1 (v : Int) : List Nat :=
  (if v < 0 then [45] else []) ++
    (if v.natAbs / 10 < 10 then [48 + v.natAbs / 10]
      else [48 + v.natAbs / 10 / 10, 48 + v.natAbs / 10 % 10]) ++
    [46, 48 + v.natAbs % 10]

/-! ## Basic facts about findIdx on windows -/

theorem findIdx_take_of_lt {α : Type} {p : α → Bool} {l : List α}
    {n : Nat} (h : l.findIdx p < n) :
    (l.take n).findIdx p = l.findIdx p := by
  induction l generalizing n with
  | nil => simp
  | cons a t ih =>
      cases n with
      | zero => omega
      | succ m =>
          rw [List.take_succ_cons, List.findIdx_cons, List.findIdx_cons]
          cases hpa : p a with
          | true => simp
          | false =>
              simp only [cond_false]
              rw [List.findIdx_cons, hpa] at h
              simp only [cond_false] at h
              rw [ih (by omega)]

theorem findIdx_take_of_le {α : Type} {p : α → Bool} {l : List α}
    {n : Nat} (h : n ≤ l.findIdx p) :
    (l.take n).findIdx p = (l.take n).length := by
  induction l generalizing n with
  | nil => simp
  | cons a t ih =>
      cases n with
      | zero => simp
      | succ m =>
          rw [List.take_succ_cons, List.findIdx_cons]
          rw [List.findIdx_cons] at h
          cases hpa : p a with
          | true => rw [hpa] at h; simp at h
          | false =>
              rw [hpa] at h
              simp only [cond_false] at h ⊢
              rw [ih (by omega)]
              simp

theorem findIdx_drop_of_le {α : Type} {p : α → Bool} {l : List α}
    {n : Nat} (h : n ≤ l.findIdx p) :
    (l.drop n).findIdx p = l.findIdx p - n := by
  induction l generalizing n with
  | nil => simp
  | cons a t ih =>
      cases n with
      | zero => simp
      | succ m =>
          rw [List.findIdx_cons] at h
          cases hpa : p a with
          | true => rw [hpa] at h; simp at h
          | false =>
              rw [hpa] at h
              simp only [cond_false] at h
              rw [List.drop_succ_cons, List.findIdx_cons, hpa]
              simp only [cond_false]
              rw [ih (by omega)]
              omega

/-! ## Behaviour of find_new_line_pos -/

theorem chunk_eq_true {l : List Nat}
    (h64 : l.findIdx (fun b => b == 10) < 64)
    (hlt : l.findIdx (fun b => b == 10) < l.length) :
    find_new_line_in_chunk l = (true, l.findIdx (fun b => b == 10)) := by
  unfold find_new_line_in_chunk
  rw [findIdx_take_of_lt h64, if_pos (by rw [List.length_take]; omega)]

theorem chunk_eq_false {l : List Nat}
    (h : 64 ≤ l.findIdx (fun b => b == 10) ∨
      l.length ≤ l.findIdx (fun b => b == 10)) :
    find_new_line_in_chunk l = (false, 64) := by
  unfold find_new_line_in_chunk
  have ht : (l.take 64).findIdx (fun b => b == 10) = (l.take 64).length := by
    rcases h with h1 | h1
    · exact findIdx_take_of_le h1
    · rcases Nat.lt_or_ge (l.findIdx (fun b => b == 10)) 64 with h2 | h2
      · have hle := @List.findIdx_le_length _ (fun b => b == 10) l
        rw [findIdx_take_of_lt h2, List.length_take]
        omega
      · exact findIdx_take_of_le h2
  rw [ht, if_neg (Nat.lt_irrefl _)]

theorem fnlp_found_w1 {l : List Nat}
    (h64 : l.findIdx (fun b => b == 10) < 64)
    (hlt : l.findIdx (fun b => b == 10) < l.length) :
    find_new_line_pos l = l.findIdx (fun b => b == 10) := by
  unfold find_new_line_pos
  rw [chunk_eq_true h64 hlt]
  simp

theorem fnlp_found_w2 {l : List Nat}
    (h64 : 64 ≤ l.findIdx (fun b => b == 10))
    (h128 : l.findIdx (fun b => b == 10) < 128)
    (hlt : l.findIdx (fun b => b == 10) < l.length) :
    find_new_line_pos l = l.findIdx (fun b => b == 10) - 64 := by
  have hd : (l.drop 64).findIdx (fun b => b == 10) =
      l.findIdx (fun b => b == 10) - 64 := findIdx_drop_of_le h64
  unfold find_new_line_pos
  rw [chunk_eq_false (Or.inl h64),
    @chunk_eq_true (l.drop 64) (by omega)
      (by rw [hd, List.length_drop]; omega), hd]
  simp

theorem fnlp_miss {l : List Nat}
    (h : 128 ≤ l.findIdx (fun b => b == 10) ∨
      l.length ≤ l.findIdx (fun b => b == 10)) :
    find_new_line_pos l = l.length % 256 := by
  have h2 : (find_new_line_in_chunk (l.drop 64)) = (false, 64) := by
    rcases Nat.lt_or_ge (l.findIdx (fun b => b == 10)) 64 with h2 | h2
    · have hnil : l.drop 64 = [] := List.drop_eq_nil_of_le (by omega)
      rw [hnil]
      apply chunk_eq_false
      simp
    · apply chunk_eq_false
      have hd : (l.drop 64).findIdx (fun b => b == 10) =
          l.findIdx (fun b => b == 10) - 64 := findIdx_drop_of_le h2
      rw [hd, List.length_drop]
      omega
  unfold find_new_line_pos
  rw [chunk_eq_false (by omega), h2]
  simp

theorem find_le (l : List Nat) : find_new_line_pos l ≤ l.length := by
  have hle := @List.findIdx_le_length _ (fun b => b == 10) l
  rcases Nat.lt_or_ge (l.findIdx (fun b => b == 10)) l.length with hlt | hge
  · rcases Nat.lt_or_ge (l.findIdx (fun b => b == 10)) 64 with h1 | h1
    · rw [fnlp_found_w1 h1 hlt]; omega
    · rcases Nat.lt_or_ge (l.findIdx (fun b => b == 10)) 128 with h2 | h2
      · rw [fnlp_found_w2 h1 h2 hlt]; omega
      · rw [fnlp_miss (Or.inl h2)]; exact Nat.mod_le _ _
  · rw [fnlp_miss (Or.inr hge)]; exact Nat.mod_le _ _

end OneBrc

namespace OneBrc

/-! ## Claim C2: behaviour of the delimiter scanner -/

/-- C2 (amended): find_new_line_pos returns the offset of the first
newline only when that offset lies in the first 64-byte window; when
the first newline lies at offset 64..127 it returns the offset minus
64; when the first newline lies at offset 128 or beyond, or the slice
holds no newline at all, it returns the slice's length reduced modulo
256.  (Window padding is never mistaken for a match.) -/
theorem c2_scanner_characterization (l : List Nat) (p : Nat)
    (hp : l.findIdx (fun b => b == 10) = p) :
    (p < l.length → p < 64 → find_new_line_pos l = p) ∧
    (p < l.length → 64 ≤ p → p < 128 → find_new_line_pos l = p - 64) ∧
    (p < l.length → 128 ≤ p → find_new_line_pos l = l.length % 256) ∧
    (l.length ≤ p → find_new_line_pos l = l.length % 256) := by
  subst hp
  refine ⟨fun h1 h2 => fnlp_found_w1 h2 h1,
    fun h1 h2 h3 => fnlp_found_w2 h2 h3 h1,
    fun h1 h2 => fnlp_miss (Or.inl h2),
    fun h1 => fnlp_miss (Or.inr h1)⟩

/-- Witness for C2's amended theorem at a concrete slice. -/
theorem c2_scanner_witness : find_new_line_pos [10, 97] = 0 :=
  (c2_scanner_characterization [10, 97] 0 (by decide)).1 (by decide) (by decide)

/-- C2 (counterexample): on a 65-byte slice whose only newline sits at
offset 64, find_new_line_pos returns 0 — neither the newline offset
nor the slice length — refuting the claimed first-occurrence result. -/
theorem c2_scanner_counterexample :
    find_new_line_pos (List.replicate 64 97 ++ [10]) = 0 ∧
      (List.replicate 64 97 ++ [10]).findIdx (fun b => b == 10) = 64 ∧
      (List.replicate 64 97 ++ [10]).length = 65 := by decide

/-! ## Claim C1: the tens-digit slip in the numeric fast path -/

/-- C1: the hundreds lane test uses `measure_parts[2] < 9` where a
digit test needs `< 10`, so a value whose tens digit is 9 loses its
tens digit: the grammar-valid row ab;99.9 parses to fixed-point 99
(re-rendered 9.9) instead of 999 (re-rendered 99.9), breaking the
claimed round-trip. -/
theorem c1_tens_digit_bug :
    parse_next_row [97, 98, 59, 57, 57, 46, 57] = some ([97, 98], 99, 8) ∧
      validVal [57, 57, 46, 57] = true ∧
      specRender1 99 = [57, 46, 57] ∧
      specRender1 999 = [57, 57, 46, 57] ∧
      specRender1 99 ≠ [57, 57, 46, 57] := by decide

/-! ## Claim C4: no validation, no rejection -/

/-- C4 (counterexample): the malformed row Oslo;abc is not rejected —
parse_next_row returns a value even though the numeric field fails the
grammar. -/
theorem c4_no_reject_counterexample :
    parse_next_row [79, 115, 108, 111, 59, 97, 98, 99] ≠ none ∧
      validVal [97, 98, 99] = false := by decide

/-- C4 (amended): parse_next_row performs no grammar validation — the
malformed row Oslo;abc is silently coerced to key Oslo with fixed-point
value -29, and the whole pipeline happily produces output for it. -/
theorem c4_silent_coercion :
    parse_next_row [79, 115, 108, 111, 59, 97, 98, 99] =
        some ([79, 115, 108, 111], -29, 9) ∧
      validVal [97, 98, 99] = false ∧
      (pipeline [79, 115, 108, 111, 59, 97, 98, 99] 40000).isSome = true := by
  decide

/-! ## Claims C8 and C3, counterexamples -/

/-- C8 (counterexample): an empty source yields one empty chunk, not
zero chunks. -/
theorem c8_empty_counterexample : chunks [] 1 = [(0, 0)] := by decide

/-- C3 (counterexample): on the buffer ab\ncd with chunk size 1 the
separating newline at offset 2 belongs to no chunk, so the chunks do
not cover the byte range. -/
theorem c3_gap_counterexample :
    chunks [97, 98, 10, 99, 100] 1 = [(0, 2), (3, 5)] ∧
      ¬ ∃ c ∈ chunks [97, 98, 10, 99, 100] 1, c.1 ≤ 2 ∧ 2 < c.2 := by decide

end OneBrc

namespace OneBrc

/-! ## Association-list map lemmas -/

/-- No key occurs twice (FxHashMap / BTreeMap keys are unique). -/
def WfMap (m : AggMap) : Prop := (m.map Prod.fst).Nodup

theorem lookup_append (m1 m2 : AggMap) (k : List Nat) :
    lookupStats (m1 ++ m2) k =
      match lookupStats m1 k with
      | some s => some s
      | none => lookupStats m2 k := by
  induction m1 with
  | nil => simp [lookupStats]
  | cons q rest ih =>
      obtain ⟨k2, s⟩ := q
      by_cases h : k = k2 <;> simp [lookupStats, h, ih]

theorem lookup_eq_none (m : AggMap) (k : List Nat) :
    lookupStats m k = none ↔ k ∉ m.map Prod.fst := by
  induction m with
  | nil => simp [lookupStats]
  | cons q rest ih =>
      obtain ⟨k2, s⟩ := q
      by_cases h : k = k2 <;> simp [lookupStats, h, ih]

theorem lookup_set (m : AggMap) (k k2 : List Nat) (s : Stats) :
    lookupStats (setStats m k s) k2 =
      if k2 = k then (lookupStats m k).map (fun _ => s)
      else lookupStats m k2 := by
  induction m with
  | nil => by_cases h : k2 = k <;> simp [setStats, lookupStats, h]
  | cons q rest ih =>
      obtain ⟨k3, s3⟩ := q
      by_cases hk : k = k3
      · subst hk
        by_cases h2 : k2 = k <;>
          simp [setStats, lookupStats, h2]
      · have hset : setStats ((k3, s3) :: rest) k s =
            (k3, s3) :: setStats rest k s := by
          simp [setStats, hk]
        rw [hset]
        by_cases h2 : k2 = k3
        · have hne : ¬k2 = k := by
            rw [h2]
            exact fun hh => hk hh.symm
          have hne2 : ¬k3 = k := fun hh => hk hh.symm
          simp [lookupStats, h2, hne, hne2]
        · by_cases h3 : k2 = k
          · subst h3
            simp [lookupStats, h2, hk, ih]
          · simp [lookupStats, h2, h3, ih]

theorem keys_set (m : AggMap) (k : List Nat) (s : Stats) :
    (setStats m k s).map Prod.fst = m.map Prod.fst := by
  induction m with
  | nil => simp [setStats]
  | cons q rest ih =>
      obtain ⟨k3, s3⟩ := q
      by_cases hk : k = k3 <;> simp [setStats, hk, ih]

theorem lookup_upsert (m : AggMap) (k : List Nat) (v : Int) (k2 : List Nat) :
    lookupStats (upsert m k v) k2 =
      if k2 = k then some (updStats ((lookupStats m k).getD emptyStats) v)
      else lookupStats m k2 := by
  unfold upsert
  cases hm : lookupStats m k with
  | some s =>
      rw [lookup_set]
      by_cases h : k2 = k <;> simp [h, hm]
  | none =>
      rw [lookup_append]
      by_cases h : k2 = k
      · subst h
        rw [hm]
        simp [lookupStats]
      · cases h2 : lookupStats m k2 <;> simp [lookupStats, h, h2]

/-- The merge of one incoming record with an optional present record:
present keys merge, absent keys are carried through unchanged. -/
def combine1 (o : Option Stats) (s : Stats) : Stats :=
  match o with
  | some gs => mergeStats gs s
  | none => s

/-- Pointwise merge of two optional records. -/
def combineOpt (o1 o2 : Option Stats) : Option Stats :=
  match o2 with
  | some s => some (combine1 o1 s)
  | none => o1

theorem lookup_mergeInsert (g : AggMap) (k : List Nat) (s : Stats)
    (k2 : List Nat) :
    lookupStats (mergeInsert g k s) k2 =
      if k2 = k then some (combine1 (lookupStats g k) s)
      else lookupStats g k2 := by
  unfold mergeInsert
  cases hg : lookupStats g k with
  | some gs =>
      rw [lookup_set]
      by_cases h : k2 = k <;> simp [h, hg, combine1]
  | none =>
      rw [lookup_append]
      by_cases h : k2 = k
      · subst h
        rw [hg]
        simp [lookupStats, combine1]
      · cases h2 : lookupStats g k2 <;> simp [lookupStats, h, h2]

theorem wf_mergeInsert {g : AggMap} (hg : WfMap g) (k : List Nat)
    (s : Stats) : WfMap (mergeInsert g k s) := by
  unfold mergeInsert
  cases hgk : lookupStats g k with
  | some gs => unfold WfMap; rw [keys_set]; exact hg
  | none =>
      unfold WfMap
      rw [List.map_append]
      simp only [List.map_cons, List.map_nil]
      rw [List.nodup_append]
      refine ⟨hg, List.nodup_singleton _, ?_⟩
      intro a ha hb
      simp at hb
      subst hb
      exact ((lookup_eq_none _ _).1 hgk) ha

theorem wf_mergeInto {g : AggMap} (hg : WfMap g) (w : AggMap) :
    WfMap (mergeInto g w) := by
  induction w generalizing g with
  | nil => exact hg
  | cons q rest ih => exact ih (wf_mergeInsert hg q.1 q.2)

theorem wf_upsert {m : AggMap} (hm : WfMap m) (k : List Nat) (v : Int) :
    WfMap (upsert m k v) := by
  unfold upsert
  cases hmk : lookupStats m k with
  | some s => unfold WfMap; rw [keys_set]; exact hm
  | none =>
      unfold WfMap
      rw [List.map_append]
      simp only [List.map_cons, List.map_nil]
      rw [List.nodup_append]
      refine ⟨hm, List.nodup_singleton _, ?_⟩
      intro a ha hb
      simp at hb
      subst hb
      exact ((lookup_eq_none _ _).1 hmk) ha

theorem wf_aggregate_from {m : AggMap} (hm : WfMap m)
    (rows : List (List Nat × Int)) :
    WfMap (rows.foldl (fun m q => upsert m q.1 q.2) m) := by
  induction rows generalizing m with
  | nil => exact hm
  | cons q rest ih => exact ih (wf_upsert hm q.1 q.2)

theorem wf_aggregateRows (rows : List (List Nat × Int)) :
    WfMap (aggregateRows rows) :=
  wf_aggregate_from (by simp [WfMap]) rows

theorem lookup_mergeInto (g w : AggMap) (hw : WfMap w) (k : List Nat) :
    lookupStats (mergeInto g w) k =
      combineOpt (lookupStats g k) (lookupStats w k) := by
  induction w generalizing g with
  | nil => simp [mergeInto, combineOpt, lookupStats]
  | cons q rest ih =>
      obtain ⟨k0, s0⟩ := q
      have hw' : k0 ∉ rest.map Prod.fst ∧ (rest.map Prod.fst).Nodup := by
        unfold WfMap at hw
        rw [List.map_cons] at hw
        exact List.nodup_cons.mp hw
      have hw2 : WfMap rest := hw'.2
      have hk0 : k0 ∉ rest.map Prod.fst := hw'.1
      have hstep : mergeInto g ((k0, s0) :: rest) =
          mergeInto (mergeInsert g k0 s0) rest := rfl
      rw [hstep, ih _ hw2, lookup_mergeInsert]
      by_cases h : k = k0
      · subst h
        have : lookupStats rest k = none := (lookup_eq_none rest k).2 hk0
        rw [this]
        simp [lookupStats, combineOpt]
      · simp [lookupStats, h, Ne.symm h]

theorem mergeStats_comm (a b : Stats) : mergeStats a b = mergeStats b a := by
  simp [mergeStats, Stats.mk.injEq, min_comm, max_comm, Nat.add_comm]

theorem mergeStats_assoc (a b c : Stats) :
    mergeStats (mergeStats a b) c = mergeStats a (mergeStats b c) := by
  simp only [mergeStats, Stats.mk.injEq]
  refine ⟨?_, ?_, ?_, ?_⟩
  · simp [min_assoc, min_comm, min_left_comm]
  · simp [max_assoc, max_comm, max_left_comm]
  · omega
  · omega

theorem combine1_merge (o : Option Stats) (a b : Stats) :
    combine1 (some (combine1 o a)) b = combine1 o (mergeStats a b) := by
  cases o <;> simp [combine1, mergeStats_assoc]

theorem combineOpt_assoc (o1 o2 o3 : Option Stats) :
    combineOpt (combineOpt o1 o2) o3 = combineOpt o1 (combineOpt o2 o3) := by
  cases o3 with
  | none => simp [combineOpt]
  | some c =>
      cases o2 with
      | none => simp [combineOpt, combine1]
      | some b =>
          cases o1 with
          | none => simp [combineOpt, combine1]
          | some a => simp [combineOpt, combine1, mergeStats_assoc]

theorem combineOpt_comm (o1 o2 : Option Stats) :
    combineOpt o1 o2 = combineOpt o2 o1 := by
  cases o1 with
  | none => cases o2 <;> simp [combineOpt, combine1]
  | some a =>
      cases o2 with
      | none => simp [combineOpt, combine1]
      | some b => simp [combineOpt, combine1, mergeStats_comm]

end OneBrc

namespace OneBrc

/-! ## Worker folding versus reducer merging -/

theorem combineOpt_none_left (o : Option Stats) : combineOpt none o = o := by
  cases o <;> simp [combineOpt, combine1]

theorem upd_as_merge {s : Stats} {v : Int} (h1 : -32768 ≤ v)
    (h2 : v ≤ 32767) :
    updStats s v = mergeStats s (updStats emptyStats v) := by
  simp only [updStats, emptyStats, mergeStats, Stats.mk.injEq]
  refine ⟨?_, ?_, ?_, ?_⟩
  · rw [min_eq_left (by omega : v ≤ (32767 : Int))]
  · rw [max_eq_left (by omega : (-32768 : Int) ≤ v)]
  · rw [Nat.zero_add, Nat.add_mod_mod]
  · trivial

theorem lookup_foldl_upsert (rows : List (List Nat × Int)) (m : AggMap)
    (k : List Nat) (hr : ∀ q ∈ rows, -32768 ≤ q.2 ∧ q.2 ≤ 32767) :
    lookupStats (rows.foldl (fun m q => upsert m q.1 q.2) m) k =
      combineOpt (lookupStats m k) (lookupStats (aggregateRows rows) k) := by
  induction rows generalizing m with
  | nil => simp [aggregateRows, lookupStats, combineOpt]
  | cons q rest ih =>
      obtain ⟨k0, v0⟩ := q
      have hq : -32768 ≤ v0 ∧ v0 ≤ 32767 := hr (k0, v0) (by simp)
      have hrest : ∀ q ∈ rest, -32768 ≤ q.2 ∧ q.2 ≤ 32767 :=
        fun q hq2 => hr q (by simp [hq2])
      have hagg : aggregateRows ((k0, v0) :: rest) =
          rest.foldl (fun m q => upsert m q.1 q.2) (upsert [] k0 v0) := rfl
      rw [List.foldl_cons, ih _ hrest, hagg, ih _ hrest]
      rw [lookup_upsert, lookup_upsert]
      have hemp : lookupStats ([] : AggMap) k = none := rfl
      by_cases h : k = k0
      · subst h
        rw [if_pos rfl, if_pos rfl, hemp, Option.getD_none]
        cases hm : lookupStats m k with
        | some s =>
            rw [Option.getD_some, upd_as_merge hq.1 hq.2]
            cases lookupStats (aggregateRows rest) k with
            | none => simp [combineOpt, combine1]
            | some x => simp [combineOpt, combine1, mergeStats_assoc]
        | none =>
            rw [Option.getD_none, combineOpt_none_left]
      · simp only [if_neg h]
        rw [hemp, combineOpt_none_left]

theorem agg_append (xs ys : List (List Nat × Int)) (k : List Nat)
    (hr : ∀ q ∈ xs ++ ys, -32768 ≤ q.2 ∧ q.2 ≤ 32767) :
    lookupStats (aggregateRows (xs ++ ys)) k =
      lookupStats (mergeInto (aggregateRows xs) (aggregateRows ys)) k := by
  have hys : ∀ q ∈ ys, -32768 ≤ q.2 ∧ q.2 ≤ 32767 :=
    fun q hq => hr q (by simp [hq])
  have h1 : aggregateRows (xs ++ ys) =
      ys.foldl (fun m q => upsert m q.1 q.2) (aggregateRows xs) := by
    unfold aggregateRows
    rw [List.foldl_append]
  rw [h1, lookup_foldl_upsert ys _ k hys,
    lookup_mergeInto _ _ (wf_aggregateRows ys) k]

/-! ## Claim C6: the reducer's merge algebra -/

/-- C6: merge of two Stats takes componentwise min/max and wrapping
sums of sum and count; a key present in only one map is carried through
unchanged (the combineOpt description); the merge is commutative and
associative at both the Stats and whole-map level; and merging
per-chunk maps agrees with aggregating the concatenation of their rows
in one pass (for measures in the i16 range, which every parsed measure
satisfies). -/
theorem c6_merge_algebra :
    (∀ a b : Stats, mergeStats a b = mergeStats b a) ∧
      (∀ a b c : Stats,
        mergeStats (mergeStats a b) c = mergeStats a (mergeStats b c)) ∧
      (∀ g w k, WfMap w →
        lookupStats (mergeInto g w) k =
          combineOpt (lookupStats g k) (lookupStats w k)) ∧
      (∀ A B k, WfMap A → WfMap B →
        lookupStats (mergeInto A B) k = lookupStats (mergeInto B A) k) ∧
      (∀ A B C k, WfMap B → WfMap C →
        lookupStats (mergeInto (mergeInto A B) C) k =
          lookupStats (mergeInto A (mergeInto B C)) k) ∧
      (∀ xs ys k, (∀ q ∈ xs ++ ys, -32768 ≤ q.2 ∧ q.2 ≤ 32767) →
        lookupStats (aggregateRows (xs ++ ys)) k =
          lookupStats (mergeInto (aggregateRows xs) (aggregateRows ys)) k) := by
  refine ⟨mergeStats_comm, mergeStats_assoc,
    fun g w k hw => lookup_mergeInto g w hw k, ?_, ?_, agg_append⟩
  · intro A B k hA hB
    rw [lookup_mergeInto A B hB k, lookup_mergeInto B A hA k,
      combineOpt_comm]
  · intro A B C k hB hC
    rw [lookup_mergeInto _ C hC k, lookup_mergeInto A B hB k,
      lookup_mergeInto A _ (wf_mergeInto hB C) k,
      lookup_mergeInto B C hC k, combineOpt_assoc]

/-- Witness for C6 at concrete maps and rows. -/
theorem c6_merge_witness :
    lookupStats (aggregateRows ([([97], 10)] ++ [([97], 20)])) [97] =
      lookupStats
        (mergeInto (aggregateRows [([97], 10)])
          (aggregateRows [([97], 20)])) [97] :=
  c6_merge_algebra.2.2.2.2.2 [([97], 10)] [([97], 20)] [97] (by decide)

/-! ## Count and sum bookkeeping -/

theorem mcount_upsert (m : AggMap) (k : List Nat) (v : Int)
    (k2 : List Nat) :
    mcount (upsert m k v) k2 =
      if k2 = k then (mcount m k + 1) % 4294967296 else mcount m k2 := by
  unfold mcount
  rw [lookup_upsert]
  by_cases h : k2 = k
  · simp only [if_pos h]
    cases hm : lookupStats m k <;> simp [updStats, emptyStats]
  · simp only [if_neg h]

theorem mcount_foldl (rows : List (List Nat × Int)) (m : AggMap)
    (k : List Nat) (hc : mcount m k < 4294967296) :
    mcount (rows.foldl (fun m q => upsert m q.1 q.2) m) k =
      (mcount m k + (rows.filter (fun q => q.1 == k)).length) %
        4294967296 := by
  induction rows generalizing m with
  | nil => simp; omega
  | cons q rest ih =>
      obtain ⟨k0, v0⟩ := q
      rw [List.foldl_cons]
      by_cases h : k = k0
      · subst h
        have hstep : mcount (upsert m k v0) k = (mcount m k + 1) % 4294967296 := by
          rw [mcount_upsert]
          simp
        rw [ih (upsert m k v0) (by rw [hstep]; omega), hstep]
        simp only [List.filter_cons]
        simp
        omega
      · have hstep : mcount (upsert m k0 v0) k = mcount m k := by
          rw [mcount_upsert]
          simp [h]
        rw [ih (upsert m k0 v0) (by rw [hstep]; omega), hstep]
        simp only [List.filter_cons]
        have hb : (k0 == k) = false := by
          simp
          exact fun hh => h hh.symm
        simp [hb]

theorem mcount_agg (rows : List (List Nat × Int)) (k : List Nat) :
    mcount (aggregateRows rows) k =
      (rows.filter (fun q => q.1 == k)).length % 4294967296 := by
  unfold aggregateRows
  rw [mcount_foldl rows [] k (by simp [mcount, lookupStats])]
  simp [mcount, lookupStats]

theorem mcount_mergeInto (g w : AggMap) (k : List Nat) (hw : WfMap w)
    (hcg : mcount g k < 4294967296) (hcw : mcount w k < 4294967296) :
    mcount (mergeInto g w) k = (mcount g k + mcount w k) % 4294967296 := by
  unfold mcount
  rw [lookup_mergeInto g w hw k]
  cases hg : lookupStats g k with
  | some a =>
      have hcg2 : a.count < 4294967296 := by
        unfold mcount at hcg
        rw [hg] at hcg
        exact hcg
      cases hw2 : lookupStats w k with
      | some b => simp [combineOpt, combine1, mergeStats]
      | none =>
          simp [combineOpt]
          omega
  | none =>
      cases hw2 : lookupStats w k with
      | some b =>
          have hcw2 : b.count < 4294967296 := by
            unfold mcount at hcw
            rw [hw2] at hcw
            exact hcw
          simp [combineOpt, combine1]
          omega
      | none => simp [combineOpt]

theorem mcount_reduce_from (maps : List AggMap) (k : List Nat)
    (hw : ∀ m ∈ maps, WfMap m)
    (hc : ∀ m ∈ maps, mcount m k < 4294967296) :
    ∀ g, WfMap g → mcount g k < 4294967296 →
      mcount (maps.foldl mergeInto g) k =
        (mcount g k + (maps.map (fun m => mcount m k)).sum) %
          4294967296 := by
  induction maps with
  | nil =>
      intro g _ hg
      simp
      omega
  | cons m0 rest ih =>
      intro g hgw hg
      rw [List.foldl_cons]
      have hm0w : WfMap m0 := hw m0 (by simp)
      have hm0c : mcount m0 k < 4294967296 := hc m0 (by simp)
      have hmerge := mcount_mergeInto g m0 k hm0w hg hm0c
      rw [ih (fun m hm => hw m (by simp [hm]))
        (fun m hm => hc m (by simp [hm])) (mergeInto g m0)
        (wf_mergeInto hgw m0) (by rw [hmerge]; omega), hmerge]
      simp
      omega

theorem msum_upsert_key (m : AggMap) (k : List Nat) (v : Int) :
    msum (upsert m k v) k = (msum m k + toU32 v) % 4294967296 := by
  unfold msum
  rw [lookup_upsert]
  simp only [if_pos rfl]
  cases hm : lookupStats m k <;> simp [updStats, emptyStats]

theorem msum_fold_key (vs : List Int) (m : AggMap) (k : List Nat)
    (hs : msum m k < 4294967296) :
    msum (vs.foldl (fun m v => upsert m k v) m) k =
      (msum m k + (vs.map toU32).sum) % 4294967296 := by
  induction vs generalizing m with
  | nil => simp; omega
  | cons v rest ih =>
      rw [List.foldl_cons,
        ih (upsert m k v) (by rw [msum_upsert_key]; omega),
        msum_upsert_key]
      simp
      omega

theorem toU32_add (x y : Int) :
    (toU32 x + toU32 y) % 4294967296 = toU32 (x + y) := by
  unfold toU32
  omega

theorem sum_toU32 (vs : List Int) :
    (vs.map toU32).sum % 4294967296 = toU32 vs.sum := by
  induction vs with
  | nil => simp [toU32]
  | cons v rest ih =>
      simp only [List.map_cons, List.sum_cons]
      have : (toU32 v + (rest.map toU32).sum) % 4294967296 =
          (toU32 v + (rest.map toU32).sum % 4294967296) % 4294967296 := by
        omega
      rw [this, ih, toU32_add]

/-! ## Claim C10: the 32-bit sum accumulation -/

/-- C10: the per-key sum is accumulated by wrapping i32 additions of
i16-widened measures, so after aggregating any list of measures for a
key the stored 32-bit pattern equals the true sum modulo 2^32; reading
it back as an i32 recovers the true sum exactly when that sum lies in
the i32 range; and the reducer's wrapping merge preserves the same
correspondence. -/
theorem c10_sum_wrapping (k : List Nat) (vs : List Int) (s : Stats)
    (hs : lookupStats (aggregateRows (vs.map (fun v => (k, v)))) k =
      some s) :
    s.sum = toU32 vs.sum ∧
      (-2147483648 ≤ vs.sum → vs.sum < 2147483648 → toI32 s.sum = vs.sum) ∧
      (∀ t : Stats, ∀ x y : Int, s.sum = toU32 x → t.sum = toU32 y →
        (mergeStats s t).sum = toU32 (x + y)) := by
  have h1 : msum (aggregateRows (vs.map (fun v => (k, v)))) k =
      toU32 vs.sum := by
    unfold aggregateRows
    rw [List.foldl_map,
      msum_fold_key vs [] k (by simp [msum, lookupStats])]
    have hz : msum ([] : AggMap) k = 0 := rfl
    rw [hz, Nat.zero_add, sum_toU32]
  have hsum : s.sum = toU32 vs.sum := by
    unfold msum at h1
    rw [hs] at h1
    exact h1
  refine ⟨hsum, ?_, ?_⟩
  · intro hl hr
    rw [hsum]
    unfold toI32 toU32
    omega
  · intro t x y hx hy
    simp only [mergeStats]
    rw [hx, hy]
    exact toU32_add x y

/-- Witness for C10 at a two-measure key whose running sum wraps
through the unsigned representation of a negative partial value. -/
theorem c10_sum_witness :
    toI32 (updStats (updStats emptyStats (-3)) 5).sum = (2 : Int) := by
  have h := c10_sum_wrapping [97] [-3, 5]
    (updStats (updStats emptyStats (-3)) 5) (by decide)
  exact (h.2.1 (by decide) (by decide)).trans (by decide)

end OneBrc

namespace OneBrc

/-! ## Facts about well-formed rows -/

theorem validVal_length {v : List Nat} (h : validVal v = true) :
    3 ≤ v.length ∧ v.length ≤ 5 := by
  rcases v with _ | ⟨a, _ | ⟨b, _ | ⟨c, _ | ⟨d, _ | ⟨e, _ | ⟨f, t⟩⟩⟩⟩⟩⟩ <;>
    simp [validVal] at h <;> simp

theorem validVal_bytes {v : List Nat} (h : validVal v = true) :
    ∀ b ∈ v, 45 ≤ b ∧ b ≤ 57 := by
  rcases v with _ | ⟨a, _ | ⟨b, _ | ⟨c, _ | ⟨d, _ | ⟨e, _ | ⟨f, t⟩⟩⟩⟩⟩⟩ <;>
    simp [validVal, isDigit] at h <;> intro x hx <;> simp at hx
  · rcases hx with h1 | h1 | h1 <;> omega
  · rcases hx with h1 | h1 | h1 | h1 <;> rcases h with h | h <;> omega
  · rcases hx with h1 | h1 | h1 | h1 | h1 <;> omega

theorem lineOf_len (r : RawRow) :
    (lineOf r).length = r.key.length + 1 + r.val.length := by
  simp [lineOf]
  omega

theorem lineOf_no_nl {r : RawRow} (h : WfRow r) :
    (lineOf r).findIdx (fun b => b == 10) = (lineOf r).length := by
  obtain ⟨hk59, hk10, hval, hge, hle⟩ := h
  rw [List.findIdx_eq_length]
  intro x hx
  simp only [beq_eq_false_iff_ne, ne_eq]
  intro hx10
  subst hx10
  unfold lineOf at hx
  rcases List.mem_append.mp hx with h1 | h1
  · exact hk10 h1
  · rcases List.mem_cons.mp h1 with h2 | h2
    · omega
    · have := validVal_bytes hval 10 h2
      omega

/-- The shared core of row parsing: once the scanner has delivered the
whole line of a well-formed row, parse_next_row returns the key, the
code's measure, and the line length plus one. -/
theorem parse_at_line (r : RawRow) (hr : WfRow r) (rem : List Nat)
    (hfind : find_new_line_pos rem = (lineOf r).length)
    (htake : rem.take ((lineOf r).length) = lineOf r) :
    parse_next_row rem = some (r.key, mval r, (lineOf r).length + 1) := by
  obtain ⟨hk59, hk10, hval, hge, hle⟩ := hr
  have hvl := validVal_length hval
  have hll := lineOf_len r
  have h6 : (lineOf r).length - 6 ≤ r.key.length := by omega
  have hdrop : (lineOf r).drop ((lineOf r).length - 6) =
      r.key.drop ((lineOf r).length - 6) ++ 59 :: r.val := by
    unfold lineOf
    exact List.drop_append_of_le_length h6
  have hktlen : (r.key.drop ((lineOf r).length - 6)).length =
      5 - r.val.length := by
    rw [List.length_drop]
    omega
  have hmsp : ((lineOf r).drop ((lineOf r).length - 6)).findIdx
      (fun b => b == 59) = 5 - r.val.length := by
    rw [hdrop, List.findIdx_append]
    have h1 : (r.key.drop ((lineOf r).length - 6)).findIdx
        (fun b => b == 59) =
        (r.key.drop ((lineOf r).length - 6)).length := by
      rw [List.findIdx_eq_length]
      intro x hx
      simp only [beq_eq_false_iff_ne, ne_eq]
      intro hx59
      subst hx59
      exact hk59 (List.mem_of_mem_drop hx)
    rw [h1, if_neg (Nat.lt_irrefl _), List.findIdx_cons]
    simp [hktlen]
  have hrdp : (lineOf r).length - (6 - (5 - r.val.length)) =
      r.key.length := by omega
  have hkey : (lineOf r).take r.key.length = r.key := by
    unfold lineOf
    exact List.take_left _ _
  simp only [parse_next_row, hfind, htake, hmsp]
  rw [if_neg (by omega : ¬(lineOf r).length < 6),
    if_neg (by omega : ¬6 ≤ 5 - r.val.length), hrdp, hkey]
  rfl

/-- Parsing at a well-formed row followed by a newline and anything. -/
theorem parse_wf_cons (r : RawRow) (hr : WfRow r) (t : List Nat) :
    parse_next_row (lineOf r ++ 10 :: t) =
      some (r.key, mval r, (lineOf r).length + 1) := by
  have hnl := lineOf_no_nl hr
  have hle := hr.2.2.2.2
  have hidx : (lineOf r ++ 10 :: t).findIdx (fun b => b == 10) =
      (lineOf r).length := by
    rw [List.findIdx_append, hnl, if_neg (Nat.lt_irrefl _),
      List.findIdx_cons]
    simp
  have hfind : find_new_line_pos (lineOf r ++ 10 :: t) =
      (lineOf r).length := by
    have h2 := @fnlp_found_w1 (lineOf r ++ 10 :: t)
      (by rw [hidx]; omega)
      (by rw [hidx, List.length_append]; simp)
    rw [hidx] at h2
    exact h2
  exact parse_at_line r hr _ hfind (List.take_left _ _)

/-- Parsing at a well-formed final row with no trailing newline. -/
theorem parse_wf_last (r : RawRow) (hr : WfRow r) :
    parse_next_row (lineOf r) =
      some (r.key, mval r, (lineOf r).length + 1) := by
  have hnl := lineOf_no_nl hr
  have hle := hr.2.2.2.2
  have hfind : find_new_line_pos (lineOf r) = (lineOf r).length := by
    rw [fnlp_miss (Or.inr (by rw [hnl]))]
    omega
  exact parse_at_line r hr _ hfind (List.take_length _)

end OneBrc

namespace OneBrc

/-! ## Claim C9: the short-line panic -/

/-- C9: parse_next_row is not total on grammar-valid rows: whenever the
scanned line is shorter than six bytes the tail slice
line[line.len() - 6..] underflows (none in this embedding, a panic in
the code) — in particular on the grammar-valid 5-byte row a;1.5 —
while every row whose line respects the 6..63-byte precondition parses
successfully, with or without a trailing newline. -/
theorem c9_short_line_panic :
    parse_next_row [97, 59, 49, 46, 53] = none ∧
      validVal [49, 46, 53] = true ∧
      (∀ rem : List Nat, (rem.take (find_new_line_pos rem)).length < 6 →
        parse_next_row rem = none) ∧
      (∀ (r : RawRow) (t : List Nat), WfRow r →
        (parse_next_row (lineOf r ++ 10 :: t)).isSome = true ∧
          (parse_next_row (lineOf r)).isSome = true) := by
  refine ⟨by decide, by decide, ?_, ?_⟩
  · intro rem h
    simp only [parse_next_row]
    rw [if_pos h]
  · intro r t hr
    rw [parse_wf_cons r hr t, parse_wf_last r hr]
    exact ⟨rfl, rfl⟩

/-- Witness for C9's totality part at a concrete 6-byte row. -/
theorem c9_short_line_witness :
    (parse_next_row (lineOf ⟨[97, 98], [49, 46, 53]⟩ ++ 10 :: [])).isSome
      = true :=
  (c9_short_line_panic.2.2.2 ⟨[97, 98], [49, 46, 53]⟩ [] (by decide)).1

/-! ## The worker loop over a chunk of rows -/

theorem lineOf_pos (r : RawRow) : 1 ≤ (lineOf r).length := by
  rw [lineOf_len]
  omega

theorem joinRows_cons (r : RawRow) (rest : List RawRow) (term : Bool) :
    joinRows (r :: rest) term =
      lineOf r ++
        (if rest.isEmpty && !term then [] else 10 :: joinRows rest term) :=
  rfl

theorem joinRows_len_ge (rows : List RawRow) (term : Bool) :
    rows.length ≤ (joinRows rows term).length := by
  induction rows with
  | nil => simp [joinRows]
  | cons r rest ih =>
      rw [joinRows_cons]
      have hl := lineOf_pos r
      by_cases hT : rest.isEmpty && !term
      · have : rest = [] := by
          cases rest
          · rfl
          · simp at hT
        subst this
        simp
        omega
      · rw [if_neg hT]
        simp only [List.length_append, List.length_cons]
        simp
        omega

theorem worker_rows (rows : List RawRow) (term : Bool)
    (hw : ∀ r ∈ rows, WfRow r) :
    ∀ (fuel : Nat) (chunk : List Nat) (i : Nat) (m : AggMap),
      chunk.drop i = joinRows rows term →
      rows.length < fuel →
      workerFuel fuel chunk i m =
        some (rows.foldl (fun m r => upsert m r.key (mval r)) m) := by
  induction rows with
  | nil =>
      intro fuel chunk i m hdrop hfuel
      cases fuel with
      | zero => omega
      | succ f =>
          have hni : ¬i < chunk.length := by
            have : chunk.drop i = [] := hdrop
            rw [List.drop_eq_nil_iff] at this
            omega
          simp [workerFuel, hni]
  | cons r rest ih =>
      intro fuel chunk i m hdrop hfuel
      have hwr : WfRow r := hw r (by simp)
      have hwrest : ∀ x ∈ rest, WfRow x := fun x hx => hw x (by simp [hx])
      cases fuel with
      | zero => omega
      | succ f =>
          have hlpos := lineOf_pos r
          have hdlen : (chunk.drop i).length = chunk.length - i :=
            List.length_drop i chunk
          have hi : i < chunk.length := by
            by_contra hni
            have hdn : chunk.drop i = [] :=
              List.drop_eq_nil_iff.mpr (by omega)
            rw [hdrop, joinRows_cons] at hdn
            have hL : lineOf r = [] := (List.append_eq_nil.mp hdn).1
            have hp := lineOf_pos r
            rw [hL] at hp
            simp at hp
          by_cases hT : rest.isEmpty && !term
          · have hrnil : rest = [] := by
              cases rest
              · rfl
              · simp at hT
            subst hrnil
            have hdrop2 : chunk.drop i = lineOf r := by
              rw [hdrop, joinRows_cons, if_pos hT, List.append_nil]
            have hstep : workerFuel (f + 1) chunk i m =
                workerFuel f chunk (i + ((lineOf r).length + 1))
                  (upsert m r.key (mval r)) := by
              simp only [workerFuel]
              rw [if_pos hi, hdrop2, parse_wf_last r hwr]
            rw [hstep, List.foldl_cons, List.foldl_nil]
            have hdrop3 : chunk.drop (i + ((lineOf r).length + 1)) = [] := by
              rw [← List.drop_drop, hdrop2]
              exact List.drop_eq_nil_iff.mpr (by omega)
            have hni2 : ¬i + ((lineOf r).length + 1) < chunk.length := by
              rw [List.drop_eq_nil_iff] at hdrop3
              omega
            cases f with
            | zero => simp at hfuel
            | succ f2 => simp [workerFuel, hni2]
          · have hdrop2 : chunk.drop i =
                lineOf r ++ 10 :: joinRows rest term := by
              rw [hdrop, joinRows_cons, if_neg hT]
            have hstep : workerFuel (f + 1) chunk i m =
                workerFuel f chunk (i + ((lineOf r).length + 1))
                  (upsert m r.key (mval r)) := by
              simp only [workerFuel]
              rw [if_pos hi, hdrop2, parse_wf_cons r hwr]
            rw [hstep, List.foldl_cons]
            apply ih hwrest f chunk _ _ ?_ (by simp at hfuel; omega)
            rw [← List.drop_drop, hdrop2]
            have hsplit : lineOf r ++ 10 :: joinRows rest term =
                (lineOf r ++ [10]) ++ joinRows rest term := by
              simp
            rw [hsplit]
            have hlen10 : (lineOf r ++ [10]).length = (lineOf r).length + 1 := by
              simp
            rw [← hlen10, List.drop_left]

/-- A worker over a whole joined chunk computes exactly the aggregate
of its rows. -/
theorem worker_top (rows : List RawRow) (term : Bool)
    (hw : ∀ r ∈ rows, WfRow r) :
    runWorker (joinRows rows term) = some (aggregateRows (rowsKV rows)) := by
  unfold runWorker
  have hfuel : rows.length < (joinRows rows term).length + 1 := by
    have := joinRows_len_ge rows term
    omega
  rw [worker_rows rows term hw ((joinRows rows term).length + 1)
    (joinRows rows term) 0 [] (by simp) hfuel]
  unfold aggregateRows rowsKV
  rw [List.foldl_map]

end OneBrc


namespace OneBrc

/-! ## Where a chunk boundary lands inside a buffer of rows -/

/-- Extending a candidate boundary at offset δ by the scanner lands
either exactly at a row-separating newline — splitting the rows into a
non-empty line-aligned head and the remaining rows — or exactly at the
end of the buffer. -/
theorem split_rows (rows : List RawRow) (term : Bool)
    (hw : ∀ r ∈ rows, WfRow r) (δ : Nat)
    (hδ : δ ≤ (joinRows rows term).length) (d : Nat)
    (hd : d = δ + find_new_line_pos ((joinRows rows term).drop δ)) :
    (∃ j, 1 ≤ j ∧ j ≤ rows.length ∧ d < (joinRows rows term).length ∧
        (joinRows rows term).take d = joinRows (rows.take j) false ∧
        (joinRows rows term)[d]? = some 10 ∧
        (joinRows rows term).drop (d + 1) = joinRows (rows.drop j) term) ∨
      d = (joinRows rows term).length := by
  induction rows generalizing δ d with
  | nil =>
      right
      have hδ0 : δ = 0 := by
        simp [joinRows] at hδ
        exact hδ
      subst hδ0
      simp [joinRows] at hd ⊢
      rw [hd]
      rfl
  | cons r rest ih =>
      have hwr : WfRow r := hw r (by simp)
      have hwrest : ∀ x ∈ rest, WfRow x := fun x hx => hw x (by simp [hx])
      have hnl := lineOf_no_nl hwr
      have hge : 6 ≤ (lineOf r).length := hwr.2.2.2.1
      have hle : (lineOf r).length ≤ 63 := hwr.2.2.2.2
      by_cases hT : rest.isEmpty && !term
      · -- single unterminated row: the buffer is exactly the line
        have hB : joinRows (r :: rest) term = lineOf r := by
          rw [joinRows_cons, if_pos hT, List.append_nil]
        rw [hB] at hδ hd ⊢
        right
        have hfi : ((lineOf r).drop δ).findIdx (fun b => b == 10) =
            ((lineOf r).drop δ).length := by
          rw [findIdx_drop_of_le (by rw [hnl]; omega), hnl,
            List.length_drop]
        have hfind : find_new_line_pos ((lineOf r).drop δ) =
            (lineOf r).length - δ := by
          rw [fnlp_miss (Or.inr (by rw [hfi])), List.length_drop,
            Nat.mod_eq_of_lt (by omega)]
        rw [hd, hfind]
        omega
      · have hB : joinRows (r :: rest) term =
            lineOf r ++ 10 :: joinRows rest term := by
          rw [joinRows_cons, if_neg hT]
        have hBs : joinRows (r :: rest) term =
            (lineOf r ++ [10]) ++ joinRows rest term := by
          rw [hB]
          simp
        have hBlen : (joinRows (r :: rest) term).length =
            (lineOf r).length + 1 + (joinRows rest term).length := by
          rw [hB]
          simp
          omega
        by_cases hδL : δ ≤ (lineOf r).length
        · -- the boundary falls inside (or at the end of) the first line
          left
          have hdropB : (joinRows (r :: rest) term).drop δ =
              (lineOf r).drop δ ++ 10 :: joinRows rest term := by
            rw [hB, List.drop_append_of_le_length hδL]
          have hno10 : ((lineOf r).drop δ).findIdx (fun b => b == 10) =
              ((lineOf r).drop δ).length := by
            rw [findIdx_drop_of_le (by rw [hnl]; omega), hnl,
              List.length_drop]
          have hfi : ((joinRows (r :: rest) term).drop δ).findIdx
              (fun b => b == 10) = (lineOf r).length - δ := by
            rw [hdropB, List.findIdx_append, hno10,
              if_neg (Nat.lt_irrefl _), List.findIdx_cons]
            simp [List.length_drop]
          have hlen2 : ((joinRows (r :: rest) term).drop δ).length =
              (joinRows (r :: rest) term).length - δ :=
            List.length_drop _ _
          have hfind : find_new_line_pos
              ((joinRows (r :: rest) term).drop δ) =
              (lineOf r).length - δ := by
            rw [← hfi]
            exact fnlp_found_w1 (by rw [hfi]; omega)
              (by rw [hfi, hlen2, hBlen]; omega)
          have hdL : d = (lineOf r).length := by
            rw [hd, hfind]
            omega
          have hj1 : joinRows ((r :: rest).take 1) false = lineOf r := by
            simp [joinRows_cons, joinRows]
          refine ⟨1, le_refl 1, by simp, ?_, ?_, ?_, ?_⟩
          · rw [hdL, hBlen]
            omega
          · rw [hdL, hB, List.take_left, hj1]
          · rw [hdL, hB, List.getElem?_append,
              if_neg (Nat.lt_irrefl _), Nat.sub_self]
            simp
          · have h10 : (lineOf r).length + 1 =
                (lineOf r ++ [10]).length := by simp
            rw [hdL, hBs, h10, List.drop_left]
            simp
        · -- the boundary falls beyond the first line: recurse
          have hδ2 : δ - ((lineOf r).length + 1) ≤
              (joinRows rest term).length := by
            rw [hBlen] at hδ
            omega
          have hδeq : δ = (lineOf r ++ [10]).length +
              (δ - ((lineOf r).length + 1)) := by
            simp
            omega
          have hdropB : (joinRows (r :: rest) term).drop δ =
              (joinRows rest term).drop (δ - ((lineOf r).length + 1)) := by
            conv_lhs => rw [hBs, hδeq]
            rw [List.drop_append]
          have hd2 : d = (lineOf r).length + 1 +
              ((δ - ((lineOf r).length + 1)) +
                find_new_line_pos ((joinRows rest term).drop
                  (δ - ((lineOf r).length + 1)))) := by
            rw [hd, hdropB]
            omega
          rcases ih hwrest (δ - ((lineOf r).length + 1)) hδ2 _ rfl with
            ⟨j2, hj1, hjle, hlt, htake, hget, hdrop⟩ | hright
          · left
            refine ⟨j2 + 1, by omega, by simp; omega, ?_, ?_, ?_, ?_⟩
            · rw [hd2, hBlen]
              omega
            · have h1 : d = (lineOf r ++ [10]).length +
                  ((δ - ((lineOf r).length + 1)) +
                    find_new_line_pos ((joinRows rest term).drop
                      (δ - ((lineOf r).length + 1)))) := by
                simp
                omega
              rw [h1, hBs, List.take_append, htake]
              have hne : (rest.take j2).isEmpty = false := by
                have : 1 ≤ (rest.take j2).length := by
                  rw [List.length_take]
                  omega
                cases h : rest.take j2
                · rw [h] at this
                  simp at this
                · simp
              rw [List.take_succ_cons, joinRows_cons, hne]
              simp
            · have h1 : d = (lineOf r ++ [10]).length +
                  ((δ - ((lineOf r).length + 1)) +
                    find_new_line_pos ((joinRows rest term).drop
                      (δ - ((lineOf r).length + 1)))) := by
                simp
                omega
              rw [h1, hBs, List.getElem?_append,
                if_neg (by simp), Nat.add_sub_cancel_left]
              exact hget
            · have h1 : d + 1 = (lineOf r ++ [10]).length +
                  (((δ - ((lineOf r).length + 1)) +
                    find_new_line_pos ((joinRows rest term).drop
                      (δ - ((lineOf r).length + 1)))) + 1) := by
                simp
                omega
              rw [h1, hBs, List.drop_append, hdrop, List.drop_succ_cons]
          · right
            rw [hd2, hright, hBlen]

end OneBrc

namespace OneBrc

/-! ## Structural facts about the chunk loop -/

theorem next_boundary_le (buffer : List Nat) (cs i : Nat) :
    next_boundary buffer cs i ≤ buffer.length := by
  unfold next_boundary
  have h := find_le (buffer.drop (Nat.min (i + cs) buffer.length))
  rw [List.length_drop] at h
  have h1 : Nat.min (i + cs) buffer.length ≤ buffer.length :=
    Nat.min_le_right _ _
  omega

theorem le_next_boundary (buffer : List Nat) (cs i : Nat)
    (h : i ≤ buffer.length) : i ≤ next_boundary buffer cs i := by
  unfold next_boundary
  have h1 : i ≤ Nat.min (i + cs) buffer.length :=
    Nat.le_min.mpr ⟨Nat.le_add_right _ _, h⟩
  omega

theorem chunksFuel_step (f : Nat) (buffer : List Nat) (cs i : Nat)
    (h : i ≤ buffer.length) :
    chunksFuel (f + 1) buffer cs i =
      (i, next_boundary buffer cs i) ::
        chunksFuel f buffer cs (next_boundary buffer cs i + 1) := by
  simp only [chunksFuel]
  rw [if_pos h]

theorem chunksFuel_stop (f : Nat) (buffer : List Nat) (cs i : Nat)
    (h : buffer.length < i) : chunksFuel f buffer cs i = [] := by
  cases f with
  | zero => rfl
  | succ f2 =>
      simp only [chunksFuel]
      rw [if_neg (by omega)]

/-- The chunk loop always yields a nonempty, ordered, pairwise
separated list of subranges whose first chunk starts at the loop's
start index and whose last chunk ends exactly at the buffer length. -/
theorem chunks_loop_struct (buffer : List Nat) (cs : Nat) :
    ∀ (fuel i : Nat), buffer.length + 2 ≤ fuel + i → i ≤ buffer.length →
      chunksFuel fuel buffer cs i ≠ [] ∧
        (chunksFuel fuel buffer cs i).head?.map Prod.fst = some i ∧
        (∃ q, (chunksFuel fuel buffer cs i).getLast? = some q ∧
          q.2 = buffer.length) ∧
        (∀ q ∈ chunksFuel fuel buffer cs i,
          i ≤ q.1 ∧ q.1 ≤ q.2 ∧ q.2 ≤ buffer.length) ∧
        List.Chain' (fun p q => q.1 = p.2 + 1)
          (chunksFuel fuel buffer cs i) ∧
        List.Pairwise (fun p q => p.2 + 1 ≤ q.1)
          (chunksFuel fuel buffer cs i) := by
  intro fuel
  induction fuel with
  | zero => intro i h1 h2; omega
  | succ f ih =>
      intro i h1 h2
      have hnb := next_boundary_le buffer cs i
      have hnbge := le_next_boundary buffer cs i h2
      rw [chunksFuel_step f buffer cs i h2]
      by_cases hend : next_boundary buffer cs i = buffer.length
      · have hnil : chunksFuel f buffer cs (next_boundary buffer cs i + 1)
            = [] := chunksFuel_stop _ _ _ _ (by omega)
        rw [hnil]
        refine ⟨by simp, by simp, ⟨(i, next_boundary buffer cs i),
          by simp, hend⟩, ?_, by simp, by simp⟩
        intro q hq
        simp at hq
        subst hq
        simp
        omega
      · have hlt : next_boundary buffer cs i < buffer.length := by omega
        obtain ⟨hne, hhead, ⟨qlast, hlast, hlast2⟩, hall, hchain, hpw⟩ :=
          ih (next_boundary buffer cs i + 1) (by omega) (by omega)
        refine ⟨by simp, by simp, ?_, ?_, ?_, ?_⟩
        · refine ⟨qlast, ?_, hlast2⟩
          rw [List.getLast?_cons, hlast]
          simp
        · intro q hq
          rcases List.mem_cons.mp hq with hq1 | hq1
          · subst hq1
            exact ⟨le_refl _, hnbge, hnb⟩
          · have := hall q hq1
            exact ⟨by omega, this.2.1, this.2.2⟩
        · rw [List.chain'_cons']
          refine ⟨?_, hchain⟩
          intro y hy
          have : (chunksFuel f buffer cs
              (next_boundary buffer cs i + 1)).head?.map Prod.fst =
              some (next_boundary buffer cs i + 1) := hhead
          cases hh : (chunksFuel f buffer cs
              (next_boundary buffer cs i + 1)).head? with
          | none => rw [hh] at hy; simp at hy
          | some z =>
              rw [hh] at hy this
              simp at hy this
              subst hy
              exact this
        · rw [List.pairwise_cons]
          refine ⟨?_, hpw⟩
          intro q hq
          have := (hall q hq).1
          simp
          omega

end OneBrc

namespace OneBrc

/-- The chunk loop over a buffer of well-formed short rows: every chunk
is a line-aligned join of consecutive rows (the final one possibly
keeping its trailing newline), the chunks' rows concatenate to the
original row list, and every buffer position is either inside a chunk
or a separating newline sitting exactly at some chunk's end. -/
theorem chunks_loop_rows (buffer : List Nat) (cs : Nat) (fuel : Nat) :
    ∀ (i : Nat) (rows : List RawRow) (term : Bool),
      (∀ r ∈ rows, WfRow r) →
      buffer.drop i = joinRows rows term →
      i + (joinRows rows term).length = buffer.length →
      buffer.length + 2 ≤ fuel + i →
      ∃ parts : List (List RawRow × Bool),
        (chunksFuel fuel buffer cs i).map (chunkBytes buffer) =
          parts.map (fun q => joinRows q.1 q.2) ∧
        (parts.map Prod.fst).flatten = rows ∧
        (∀ q ∈ parts, ∀ r ∈ q.1, WfRow r) ∧
        (∀ p, i ≤ p → p < buffer.length →
          (∃ c ∈ chunksFuel fuel buffer cs i, c.1 ≤ p ∧ p < c.2) ∨
            (buffer[p]? = some 10 ∧
              ∃ c ∈ chunksFuel fuel buffer cs i, c.2 = p)) := by
  induction fuel with
  | zero =>
      intro i rows term hw hdrop hlen hfuel
      omega
  | succ f ih =>
      intro i rows term hw hdrop hlen hfuel
      have hi : i ≤ buffer.length := by omega
      have hminge : i ≤ Nat.min (i + cs) buffer.length :=
        Nat.le_min.mpr ⟨Nat.le_add_right _ _, hi⟩
      have hminle : Nat.min (i + cs) buffer.length ≤ buffer.length :=
        Nat.min_le_right _ _
      have hδle : Nat.min (i + cs) buffer.length - i ≤
          (joinRows rows term).length := by omega
      have hdropδ : buffer.drop (Nat.min (i + cs) buffer.length) =
          (joinRows rows term).drop
            (Nat.min (i + cs) buffer.length - i) := by
        rw [← hdrop, List.drop_drop]
        congr 1
        omega
      have hnb : next_boundary buffer cs i =
          i + ((Nat.min (i + cs) buffer.length - i) +
            find_new_line_pos ((joinRows rows term).drop
              (Nat.min (i + cs) buffer.length - i))) := by
        unfold next_boundary
        rw [hdropδ]
        omega
      rcases split_rows rows term hw (Nat.min (i + cs) buffer.length - i)
          hδle _ rfl with
        ⟨j, hj1, hjle, hlt, htake, hget, hdropj⟩ | hright
      · -- a newline boundary inside the buffer: head chunk + recursion
        set d := (Nat.min (i + cs) buffer.length - i) +
          find_new_line_pos ((joinRows rows term).drop
            (Nat.min (i + cs) buffer.length - i)) with hddef
        have hw2 : ∀ r ∈ rows.drop j, WfRow r :=
          fun r hr => hw r (List.mem_of_mem_drop hr)
        have hdrop2 : buffer.drop (i + d + 1) =
            joinRows (rows.drop j) term := by
          rw [← hdropj, ← hdrop, List.drop_drop]
          congr 1
        have hlenj := congrArg List.length hdropj
        rw [List.length_drop] at hlenj
        have hlen2 : (i + d + 1) +
            (joinRows (rows.drop j) term).length = buffer.length := by
          omega
        obtain ⟨parts, hmap, hflat, hpwf, hcov⟩ :=
          ih (i + d + 1) (rows.drop j) term hw2 hdrop2 hlen2 (by omega)
        refine ⟨(rows.take j, false) :: parts, ?_, ?_, ?_, ?_⟩
        · rw [chunksFuel_step f buffer cs i hi, List.map_cons,
            List.map_cons]
          congr 1
          · unfold chunkBytes
            simp only
            rw [hdrop]
            have hsub : next_boundary buffer cs i - i = d := by omega
            rw [hsub, htake]
          · have hplus : next_boundary buffer cs i + 1 = i + d + 1 := by
              omega
            rw [hplus]
            exact hmap
        · simp only [List.map_cons, List.flatten_cons]
          rw [hflat, List.take_append_drop]
        · intro q hq
          rcases List.mem_cons.mp hq with hq1 | hq1
          · subst hq1
            intro r hr
            exact hw r (List.take_subset _ _ hr)
          · exact hpwf q hq1
        · intro p hip hplen
          rw [chunksFuel_step f buffer cs i hi]
          by_cases hpd : p < i + d
          · left
            exact ⟨(i, next_boundary buffer cs i), by simp,
              hip, by omega⟩
          · by_cases hpe : p = i + d
            · right
              constructor
              · have hgd : (buffer.drop i)[d]? = some 10 := by
                  rw [hdrop]
                  exact hget
                rw [List.getElem?_drop] at hgd
                rw [hpe]
                exact hgd
              · exact ⟨(i, next_boundary buffer cs i), by simp,
                  by omega⟩
            · have hplus : next_boundary buffer cs i + 1 = i + d + 1 := by
                omega
              rw [hplus]
              rcases hcov p (by omega) hplen with
                ⟨c, hc, hc2⟩ | ⟨h10, c, hc, hc2⟩
              · exact Or.inl ⟨c, List.mem_cons_of_mem _ hc, hc2⟩
              · exact Or.inr ⟨h10, c, List.mem_cons_of_mem _ hc, hc2⟩
      · -- no further newline: the final chunk takes everything
        have hnbl : next_boundary buffer cs i = buffer.length := by omega
        have hnil : chunksFuel f buffer cs
            (next_boundary buffer cs i + 1) = [] :=
          chunksFuel_stop _ _ _ _ (by omega)
        refine ⟨[(rows, term)], ?_, by simp, ?_, ?_⟩
        · rw [chunksFuel_step f buffer cs i hi, hnil]
          simp only [List.map_cons, List.map_nil]
          congr 1
          unfold chunkBytes
          simp only
          rw [hdrop]
          have hsub : next_boundary buffer cs i - i =
              (joinRows rows term).length := by omega
          rw [hsub, List.take_length]
        · intro q hq
          simp at hq
          subst hq
          intro r hr
          exact hw r hr
        · intro p hip hplen
          left
          rw [chunksFuel_step f buffer cs i hi, hnil]
          exact ⟨(i, next_boundary buffer cs i), by simp, hip, by omega⟩

end OneBrc

namespace OneBrc

/-! ## Claim C8: edge cases of the splitter -/

/-- C8 (amended): a chunk size at least the source length yields the
single chunk [0, len); an empty source yields exactly one empty chunk
(0,0) — not zero chunks; and for every buffer and chunk size the final
chunk terminates exactly at len. -/
theorem c8_edge_amended (buffer : List Nat) (cs : Nat) :
    (buffer.length ≤ cs → chunks buffer cs = [(0, buffer.length)]) ∧
      chunks [] cs = [(0, 0)] ∧
      (∃ q, (chunks buffer cs).getLast? = some q ∧
        q.2 = buffer.length) := by
  have hfind0 : find_new_line_pos [] = 0 := rfl
  refine ⟨?_, ?_, ?_⟩
  · intro hcs
    unfold chunks
    have hnb : next_boundary buffer cs 0 = buffer.length := by
      unfold next_boundary
      have hmin : Nat.min (0 + cs) buffer.length = buffer.length :=
        Nat.min_eq_right (by omega)
      rw [hmin, List.drop_length, hfind0]
      omega
    rw [show buffer.length + 2 = buffer.length + 1 + 1 from rfl,
      chunksFuel_step (buffer.length + 1) buffer cs 0 (by omega), hnb,
      chunksFuel_stop _ _ _ _ (by omega)]
  · unfold chunks
    have hnb : next_boundary [] cs 0 = 0 := by
      unfold next_boundary
      have hmin : Nat.min (0 + cs) ([] : List Nat).length = 0 := by
        simp
      rw [hmin]
      simp [hfind0]
    rw [show ([] : List Nat).length + 2 = 1 + 1 by simp,
      chunksFuel_step 1 [] cs 0 (by simp), hnb,
      chunksFuel_stop _ _ _ _ (by simp)]
  · unfold chunks
    exact (chunks_loop_struct buffer cs (buffer.length + 2) 0
      (by omega) (by omega)).2.2.1

/-- Witness for C8 at a concrete one-row buffer. -/
theorem c8_edge_witness : chunks [97] 5 = [(0, 1)] :=
  (c8_edge_amended [97] 5).1 (by simp)

/-! ## Claim C3: what the splitter actually guarantees -/

/-- C3 (amended): for a buffer of well-formed rows (6..63-byte lines)
and any chunk size ≥ 1, the chunks are pairwise separated subranges of
[0, len), consecutive chunks differ by exactly one byte, the first
chunk starts at 0, the last ends exactly at len, and every position not
covered by a chunk holds the newline byte and is the end position of
some chunk — i.e. each separating newline is excluded from every chunk,
and chunk ends sit at the newline, not one byte past it. -/
theorem c3_chunk_amended (rows : List RawRow) (term : Bool) (cs : Nat)
    (hcs : 1 ≤ cs) (hw : ∀ r ∈ rows, WfRow r) :
    List.Pairwise (fun p q => p.2 + 1 ≤ q.1)
        (chunks (joinRows rows term) cs) ∧
      List.Chain' (fun p q => q.1 = p.2 + 1)
        (chunks (joinRows rows term) cs) ∧
      (∀ q ∈ chunks (joinRows rows term) cs,
        q.1 ≤ q.2 ∧ q.2 ≤ (joinRows rows term).length) ∧
      (chunks (joinRows rows term) cs).head?.map Prod.fst = some 0 ∧
      (∃ q, (chunks (joinRows rows term) cs).getLast? = some q ∧
        q.2 = (joinRows rows term).length) ∧
      (∀ p, p < (joinRows rows term).length →
        (∃ c ∈ chunks (joinRows rows term) cs, c.1 ≤ p ∧ p < c.2) ∨
          ((joinRows rows term)[p]? = some 10 ∧
            ∃ c ∈ chunks (joinRows rows term) cs, c.2 = p)) := by
  unfold chunks
  obtain ⟨hne, hh, hl, hall, hchain, hpw⟩ :=
    chunks_loop_struct (joinRows rows term) cs
      ((joinRows rows term).length + 2) 0 (by omega) (by omega)
  obtain ⟨parts, hmap, hflat, hpwf, hcov⟩ :=
    chunks_loop_rows (joinRows rows term) cs
      ((joinRows rows term).length + 2) 0 rows term hw (by simp)
      (by simp) (by omega)
  exact ⟨hpw, hchain,
    fun q hq => ⟨(hall q hq).2.1, (hall q hq).2.2⟩, hh, hl,
    fun p hp => hcov p (by omega) hp⟩

/-- Witness for C3 at a concrete two-row buffer. -/
theorem c3_chunk_witness :
    (chunks (joinRows [⟨[97, 98], [49, 46, 53]⟩,
      ⟨[99, 100], [50, 46, 53]⟩] false) 3).head?.map Prod.fst =
      some 0 :=
  (c3_chunk_amended [⟨[97, 98], [49, 46, 53]⟩,
    ⟨[99, 100], [50, 46, 53]⟩] false 3 (by omega) (by decide)).2.2.2.1

/-! ## Claim C7: per-key counts through the whole pipeline -/

theorem mapM_workers (B : List Nat) :
    ∀ (ps : List (Nat × Nat)) (parts : List (List RawRow × Bool)),
      ps.map (chunkBytes B) = parts.map (fun q => joinRows q.1 q.2) →
      (∀ q ∈ parts, ∀ r ∈ q.1, WfRow r) →
      ps.mapM (fun p => runWorker (chunkBytes B p)) =
        some (parts.map (fun q => aggregateRows (rowsKV q.1))) := by
  intro ps
  induction ps with
  | nil =>
      intro parts hmapeq hwf
      cases parts with
      | nil => rfl
      | cons q qt => simp at hmapeq
  | cons p pt ih =>
      intro parts hmapeq hwf
      cases parts with
      | nil => simp at hmapeq
      | cons q qt =>
          simp only [List.map_cons] at hmapeq
          have h1 : chunkBytes B p = joinRows q.1 q.2 :=
            (List.cons.injEq _ _ _ _).mp hmapeq |>.1
          have h2 : pt.map (chunkBytes B) =
              qt.map (fun q => joinRows q.1 q.2) :=
            (List.cons.injEq _ _ _ _).mp hmapeq |>.2
          rw [List.mapM_cons, h1, worker_top q.1 q.2 (hwf q (by simp)),
            ih qt h2 (fun x hx => hwf x (by simp [hx]))]
          rfl

theorem sum_map_mod {α : Type} (l : List α) (f : α → Nat) :
    (l.map (fun x => f x % 4294967296)).sum % 4294967296 =
      (l.map f).sum % 4294967296 := by
  induction l with
  | nil => rfl
  | cons a t ih =>
      simp only [List.map_cons, List.sum_cons]
      omega

/-- C7 (amended): for every input made of well-formed rows (6..63-byte
lines, with or without a trailing newline) and every chunk size ≥ 1,
the pipeline succeeds and records for every key the exact number of
input rows carrying it, modulo 2^32 — exactly, whenever fewer than
2^32 rows share the key. -/
theorem c7_count_amended (rows : List RawRow) (term : Bool) (cs : Nat)
    (hcs : 1 ≤ cs) (hw : ∀ r ∈ rows, WfRow r) :
    ∃ M, pipeline (joinRows rows term) cs = some M ∧
      ∀ k, mcount M k =
          (rows.filter (fun r => r.key == k)).length % 4294967296 ∧
        ((rows.filter (fun r => r.key == k)).length < 4294967296 →
          mcount M k = (rows.filter (fun r => r.key == k)).length) := by
  obtain ⟨parts, hmap, hflat, hpwf, hcov⟩ :=
    chunks_loop_rows (joinRows rows term) cs
      ((joinRows rows term).length + 2) 0 rows term hw (by simp)
      (by simp) (by omega)
  have hM : pipeline (joinRows rows term) cs =
      some (reduceAll (parts.map (fun q => aggregateRows (rowsKV q.1)))) := by
    unfold pipeline chunks
    rw [mapM_workers _ _ parts hmap hpwf]
    rfl
  refine ⟨_, hM, ?_⟩
  intro k
  have hwfm : ∀ m ∈ parts.map (fun q => aggregateRows (rowsKV q.1)),
      WfMap m := by
    intro m hm
    obtain ⟨q, _, hq2⟩ := List.mem_map.mp hm
    rw [← hq2]
    exact wf_aggregateRows _
  have hcnt : ∀ m ∈ parts.map (fun q => aggregateRows (rowsKV q.1)),
      mcount m k < 4294967296 := by
    intro m hm
    obtain ⟨q, _, hq2⟩ := List.mem_map.mp hm
    rw [← hq2, mcount_agg]
    exact Nat.mod_lt _ (by omega)
  have h1 := mcount_reduce_from
    (parts.map (fun q => aggregateRows (rowsKV q.1))) k hwfm hcnt []
    (by simp [WfMap]) (by simp [mcount, lookupStats])
  have hz : mcount ([] : AggMap) k = 0 := rfl
  rw [hz, Nat.zero_add] at h1
  have hfm : ∀ (rs : List RawRow),
      ((rowsKV rs).filter (fun p => p.1 == k)).length =
        (rs.filter (fun r => r.key == k)).length := by
    intro rs
    unfold rowsKV
    rw [List.filter_map, List.length_map]
    rfl
  have h2 : (parts.map (fun q => aggregateRows (rowsKV q.1))).map
      (fun m => mcount m k) =
      parts.map (fun q =>
        (q.1.filter (fun r => r.key == k)).length % 4294967296) := by
    rw [List.map_map]
    apply List.map_congr_left
    intro q _
    simp only [Function.comp]
    rw [mcount_agg, hfm]
  have h4 : (parts.map (fun q =>
      (q.1.filter (fun r => r.key == k)).length)).sum =
      (rows.filter (fun r => r.key == k)).length := by
    rw [← hflat, List.filter_flatten, List.length_flatten,
      List.map_map, List.map_map]
    rfl
  have hfinal : mcount (reduceAll
      (parts.map (fun q => aggregateRows (rowsKV q.1)))) k =
      (rows.filter (fun r => r.key == k)).length % 4294967296 := by
    unfold reduceAll at *
    rw [h1, h2, sum_map_mod, h4]
  refine ⟨hfinal, fun hlt => ?_⟩
  rw [hfinal, Nat.mod_eq_of_lt hlt]

/-- Witness for C7 at a concrete one-row input. -/
theorem c7_count_witness :
    ∃ M, pipeline (joinRows [⟨[97, 98], [49, 46, 53]⟩] false) 4 =
        some M ∧
      ∀ k, mcount M k =
          ([⟨[97, 98], [49, 46, 53]⟩].filter
            (fun r : RawRow => r.key == k)).length % 4294967296 ∧
        (([⟨[97, 98], [49, 46, 53]⟩].filter
            (fun r : RawRow => r.key == k)).length < 4294967296 →
          mcount M k =
            ([⟨[97, 98], [49, 46, 53]⟩].filter
              (fun r : RawRow => r.key == k)).length) :=
  c7_count_amended [⟨[97, 98], [49, 46, 53]⟩] false 4 (by omega)
    (by decide)

/-- The C7 counterexample input: a 134-byte first line (its newline is
beyond both 64-byte scanner windows), one bb row at the position the
len-mod-256 fallback cuts, 35 further bb rows, and a final six-byte-key
row — 397 bytes in all, parsed as one chunk. -/
def c7rows : List RawRow :=
  ⟨List.replicate 130 97, [49, 46, 49]⟩ ::
    (List.replicate 36 (⟨[98, 98], [50, 46, 50]⟩ : RawRow) ++
      [⟨[98, 98, 98, 98, 98, 98], [50, 46, 50]⟩])

set_option maxRecDepth 40000 in
/-- C7 (counterexample): the input holds 36 rows keyed bb, yet the
pipeline completes (producing output, not an error) and reports
count 35 for bb — the first bb row is swallowed into a garbage key by
the mis-split — refuting the unrestricted exact-count claim. -/
theorem c7_count_counterexample :
    (c7rows.filter (fun r => r.key == [98, 98])).length = 36 ∧
      (pipeline (joinRows c7rows false) 40000).map
        (fun m => mcount m [98, 98]) = some 35 := by decide

end OneBrc
